import Mathlib

/-!
Verification of the duplicate-detection and text-normalization engine of the
telebot_chanal repository. Strings are modelled as `List Char`; Python regex
substitutions are modelled as equivalent character state machines; Python float
similarity scores are modelled as rationals. Configuration values that the code
imports from its config module (ad-pattern lists, stop words, thresholds, cache
bounds, the cleaning toggle) are passed as explicit parameters.
-/

namespace Telebot

/-! Character classes: ASCII model of Python str and regex semantics. -/

/-- Python whitespace (the regex class backslash-s, and str.strip / str.split). -/
def isSpaceChar (c : Char) : Bool :=
  c == ' ' || c == '\t' || c == '\n' || c == '\r' || c == '\x0b' || c == '\x0c'

/-- Python regex word character (backslash-w): letter, digit or underscore. -/
def isWordChar (c : Char) : Bool :=
  (decide ('a' ≤ c) && decide (c ≤ 'z')) || (decide ('A' ≤ c) && decide (c ≤ 'Z')) ||
  (decide ('0' ≤ c) && decide (c ≤ '9')) || c == '_'

def isUpperChar (c : Char) : Bool := decide ('A' ≤ c) && decide (c ≤ 'Z')

def isDigitChar (c : Char) : Bool := decide ('0' ≤ c) && decide (c ≤ '9')

/-- str.lower on a single character. -/
def lowerChar (c : Char) : Char :=
  if isUpperChar c then Char.ofNat (c.toNat + 32) else c

/-! Basic string (list of characters) operations. -/

/-- Left part of str.strip. -/
def trimLeft (l : List Char) : List Char := l.dropWhile isSpaceChar

/-- Right part of str.strip. -/
def trimRight (l : List Char) : List Char := (l.reverse.dropWhile isSpaceChar).reverse

/-- Python str.strip(). -/
def trim (l : List Char) : List Char := trimRight (trimLeft l)

/-- Python text.split("\n"): split at every newline, keeping empty pieces. -/
def splitOnNl : List Char → List (List Char)
  | [] => [[]]
  | c :: rest =>
    match splitOnNl rest with
    | [] => [[c]]
    | g :: gs => if c = '\n' then [] :: g :: gs else (c :: g) :: gs

/-- Python "\n".join. -/
def joinNl : List (List Char) → List Char
  | [] => []
  | [l] => l
  | l :: ls => l ++ '\n' :: joinNl ls

/-- Python " ".join. -/
def joinSpace : List (List Char) → List Char
  | [] => []
  | [w] => w
  | w :: ws => w ++ ' ' :: joinSpace ws

/-- Worker for str.split() with no argument; acc holds the reversed current word. -/
def wordsAux : List Char → List Char → List (List Char)
  | [], acc => if acc = [] then [] else [acc.reverse]
  | c :: rest, acc =>
    if isSpaceChar c then
      if acc = [] then wordsAux rest [] else acc.reverse :: wordsAux rest []
    else wordsAux rest (c :: acc)

/-- Python text.split(): maximal runs of non-whitespace characters. -/
def wordsOf (l : List Char) : List (List Char) := wordsAux l []

def headIsWord : List Char → Bool
  | [] => false
  | c :: _ => isWordChar c

/-- State machine for re.sub of a tag (such as the hash sign or the at sign)
followed by one or more word characters, replaced by the empty string. The
Boolean state records whether we are inside a word-run being deleted. -/
def goT (tag : Char) : Bool → List Char → List Char
  | _, [] => []
  | true, c :: rest =>
    if isWordChar c then goT tag true rest
    else if c == tag && headIsWord rest then goT tag true rest
    else c :: goT tag false rest
  | false, c :: rest =>
    if c == tag && headIsWord rest then goT tag true rest
    else c :: goT tag false rest

/-- re.sub of tag followed by word characters with the empty string. -/
def subTag (tag : Char) (l : List Char) : List Char := goT tag false l

/-- Whether the list starts with the literal h,t,t,p followed by a
non-whitespace character: the start of a match of the url regex. -/
def isHttpStart : List Char → Bool
  | c1 :: c2 :: c3 :: c4 :: c5 :: _ =>
    c1 == 'h' && c2 == 't' && c3 == 't' && c4 == 'p' && !isSpaceChar c5
  | _ => false

/-- State machine for re.sub of http followed by one or more non-space
characters, replaced by the empty string. The Boolean state records whether we
are inside a url being deleted. -/
def goU : Bool → List Char → List Char
  | _, [] => []
  | true, c :: rest =>
    if isSpaceChar c then c :: goU false rest else goU true rest
  | false, c :: rest =>
    if isHttpStart (c :: rest) then goU true rest
    else c :: goU false rest

/-- re.sub of the url pattern with the empty string. -/
def subUrls (l : List Char) : List Char := goU false l

/-- Some suffix of the list begins a url-pattern match (the literal characters
h,t,t,p followed by a non-space character): the url regex has an occurrence
inside the list. -/
def hasHttp (l : List Char) : Prop := ∃ i, isHttpStart (l.drop i) = true

/-- State machine for re.sub of a digit run with a single space. The Boolean
state records whether we are inside a digit run whose space was emitted. -/
def goD : Bool → List Char → List Char
  | _, [] => []
  | inRun, c :: rest =>
    if isDigitChar c then
      if inRun then goD true rest else ' ' :: goD true rest
    else c :: goD false rest

/-- re.sub of one or more digits with a single space. -/
def subDigits (l : List Char) : List Char := goD false l

/-- State machine for re.sub of three or more newlines with exactly two. The
state counts the consecutive newlines seen so far, capped at two. -/
def goN : Nat → List Char → List Char
  | _, [] => []
  | k, c :: rest =>
    if c = '\n' then
      if k < 2 then '\n' :: goN (k + 1) rest else goN k rest
    else c :: goN 0 rest

/-- re.sub replacing runs of three or more newlines by exactly two. -/
def collapseNl (l : List Char) : List Char := goN 0 l

/-- Replace every character that is neither a word character nor whitespace by
a single space: re.sub of the negated word-or-space class. -/
def punctToSpace (l : List Char) : List Char :=
  l.map (fun c => if isWordChar c || isSpaceChar c then c else ' ')

/-! Line predicates used by the text processor. -/

/-- The separator-run regex: a line of whitespace, dashes, bullets, equals,
tildes and underscores only (the empty line included). -/
def isSepLine (l : List Char) : Bool :=
  l.all (fun c => isSpaceChar c || c == '-' || c == '•' || c == '=' || c == '~' || c == '_')

/-- States of the deterministic automaton of the ticker-line regex: a list of
uppercase tokens, each optionally prefixed by a dollar sign, separated by
whitespace runs. -/
inductive TickSt where
  | start
  | afterDollar
  | inWord
  | inGap
deriving DecidableEq

def tickStep : TickSt → Char → Option TickSt
  | TickSt.start, c =>
    if c = '$' then some TickSt.afterDollar
    else if isUpperChar c then some TickSt.inWord else none
  | TickSt.afterDollar, c => if isUpperChar c then some TickSt.inWord else none
  | TickSt.inWord, c =>
    if isUpperChar c then some TickSt.inWord
    else if isSpaceChar c then some TickSt.inGap else none
  | TickSt.inGap, c =>
    if c = '$' then some TickSt.afterDollar
    else if isUpperChar c then some TickSt.inWord
    else if isSpaceChar c then some TickSt.inGap else none

def tickRun : TickSt → List Char → Option TickSt
  | s, [] => some s
  | s, c :: rest =>
    match tickStep s c with
    | none => none
    | some s2 => tickRun s2 rest

/-- Full match of the ticker-line regex (accepting state: inside a token). -/
def isTickerLine (l : List Char) : Bool := tickRun TickSt.start l = some TickSt.inWord

/-- Prefix match of the hashtag-line regex: a hash sign then a word character. -/
def isHashtagLine : List Char → Bool
  | '#' :: c :: _ => isWordChar c
  | _ => false

/-! The Mode A duplicate checker of next.py (class MessageDuplicateChecker). -/

/-- MessageDuplicateChecker.remove_hashtags: drop hashtag tokens, collapse
whitespace, strip. -/
def remove_hashtags (t : List Char) : List Char :=
  if t = [] then [] else trim (joinSpace (wordsOf (subTag '#' t)))

/-- MessageDuplicateChecker.normalize_text: drop hashtags, lowercase, drop
urls, drop mentions, replace other punctuation by spaces, collapse whitespace. -/
def normalize_text (t : List Char) : List Char :=
  if t = [] then []
  else joinSpace (wordsOf (punctToSpace (subTag '@' (subUrls ((remove_hashtags t).map lowerChar)))))

/-- The set of whitespace-delimited tokens of a text. -/
def tokenSet (t : List Char) : Finset (List Char) := (wordsOf t).toFinset

/-- MessageDuplicateChecker.calculate_similarity: Jaccard coefficient of the
word sets (the intersection size divided by the union size, as a rational),
zero when either text or either word set is empty. -/
def calculate_similarity (t1 t2 : List Char) : ℚ :=
  if t1 = [] ∨ t2 = [] then 0
  else if tokenSet t1 = ∅ ∨ tokenSet t2 = ∅ then 0
  else mkRat ((tokenSet t1 ∩ tokenSet t2).card : Int) ((tokenSet t1 ∪ tokenSet t2).card)

/-- The end-to-end Jaccard word-overlap score of two raw texts: normalize both
texts, then Jaccard of the token sets. -/
def jaccardScore (a b : List Char) : ℚ :=
  calculate_similarity (normalize_text a) (normalize_text b)

/-- A Mode A cache entry: (normalized text, timestamp, original text). -/
abbrev AEntry := List Char × ℚ × List Char

/-- MessageDuplicateChecker.clean_old_messages: keep entries newer than the
cutoff now minus window_hours times 3600 seconds. -/
def clean_old_messages (windowHours now : ℚ) (recent : List AEntry) : List AEntry :=
  recent.filter (fun m => decide (now - windowHours * 3600 < m.2.1))

/-- The scan over cached entries inside is_similar_message: first entry whose
similarity reaches the threshold wins. -/
def scanA (thr : ℚ) (nn : List Char) : List AEntry → Option (ℚ × List Char)
  | [] => none
  | e :: rest =>
    let sim := calculate_similarity nn e.1
    if thr ≤ sim then some (sim, e.2.2) else scanA thr nn rest

/-- MessageDuplicateChecker.is_similar_message: clean old entries, normalize
the new text, scan for a match with similarity at or above the threshold;
append the new entry only when unique and the normalized text is non-empty.
Returns the (verdict, evidence) pair and the updated cache. -/
def is_similar_message (thr windowHours : ℚ) (recent : List AEntry)
    (newText : List Char) (now : ℚ) : (Bool × Option (ℚ × List Char)) × List AEntry :=
  let recent1 := clean_old_messages windowHours now recent
  let nn := normalize_text newText
  if nn = [] then ((false, none), recent1)
  else
    match scanA thr nn recent1 with
    | some info => ((true, some info), recent1)
    | none => ((false, none), recent1 ++ [(nn, now, newText)])

/-! The TextProcessor service. The ad-pattern lists live in the repository's
config module, which is not part of the sources here; the combined effect of
applying pattern.sub with the empty replacement for each configured pattern is
passed as a function parameter (adSubC for the comparison list, adSubF for the
forwarding list), and the stop-word set as a list parameter. -/

/-- Line filter of TextProcessor.clean_text_for_compare. -/
def keepCompareLine (l : List Char) : Bool :=
  !(l.isEmpty || isSepLine l) && !isTickerLine l && !isHashtagLine l

/-- TextProcessor.clean_text_for_compare: apply the comparison ad patterns,
then drop empty, separator, ticker and hashtag lines. -/
def clean_text_for_compare (adSubC : List Char → List Char) (t : List Char) : List Char :=
  if t = [] then []
  else joinNl (((splitOnNl (adSubC t)).map trim).filter keepCompareLine)

/-- The line filter stage of TextProcessor.clean_text_for_forward: strip every
line, drop empty lines, and drop ticker lines when the newline split of the
pattern-cleaned text produced more than one line. -/
def forwardKept (adSubF : List Char → List Char) (t : List Char) : List (List Char) :=
  ((splitOnNl (adSubF t)).map trim).filter
    (fun l => !l.isEmpty && !(isTickerLine l && decide (1 < (splitOnNl (adSubF t)).length)))

/-- The cleaned text produced by TextProcessor.clean_text_for_forward: join the
kept lines, collapse three or more newlines to two, and strip. -/
def forwardResult (adSubF : List Char → List Char) (t : List Char) : List Char :=
  trim (collapseNl (joinNl (forwardKept adSubF t)))

/-- TextProcessor.clean_text_for_forward: apply the forwarding ad patterns,
drop empty lines, drop ticker lines when the split produced more than one
line, collapse three or more newlines to two, strip, and report the number of
characters removed. Unmodified when the text is empty or cleaning is off. -/
def clean_text_for_forward (adSubF : List Char → List Char) (cleanEnabled : Bool)
    (t : List Char) : List Char × Int :=
  if t = [] ∨ cleanEnabled = false then (t, 0)
  else (forwardResult adSubF t, (t.length : Int) - ((forwardResult adSubF t).length : Int))

/-- The first up-to-three lines of the compare-cleaned text that are longer
than ten characters after stripping, in TextProcessor.create_comparison_key. -/
def mainLinesOf (adSubC : List Char → List Char) (t : List Char) : List (List Char) :=
  (((splitOnNl (clean_text_for_compare adSubC t)).take 3).map trim).filter
    (fun l => !l.isEmpty && decide (10 < l.length))

/-- The comparison-normalized content of create_comparison_key: join the main
lines, lowercase, strip punctuation and digits, collapse whitespace. -/
def contentOf (adSubC : List Char → List Char) (t : List Char) : List Char :=
  joinSpace (wordsOf (subDigits (punctToSpace ((joinSpace (mainLinesOf adSubC t)).map lowerChar))))

/-- The significant tokens of create_comparison_key: tokens of the content that
are not stop words and are longer than two characters. -/
def sigWordsOf (adSubC : List Char → List Char) (stopWords : List (List Char))
    (t : List Char) : List (List Char) :=
  (wordsOf (contentOf adSubC t)).filter (fun w => !stopWords.contains w && decide (2 < w.length))

/-- TextProcessor.create_comparison_key: rejection cascade, then the first
min(10, max(8, count)) significant tokens joined by spaces. -/
def create_comparison_key (adSubC : List Char → List Char) (stopWords : List (List Char))
    (t : List Char) : List Char :=
  if clean_text_for_compare adSubC t = [] then []
  else if mainLinesOf adSubC t = [] then []
  else if (contentOf adSubC t).length < 20 then []
  else
    let words := sigWordsOf adSubC stopWords t
    if words.length < 3 then []
    else joinSpace (words.take (min 10 (max 8 words.length)))

/-- TextProcessor.calculate_similarity: zero when either raw text is empty,
otherwise the difflib SequenceMatcher ratio (an external standard-library
collaborator, passed as the parameter ratio) of the compare-cleaned texts. -/
def calculate_similarityB (adSubC : List Char → List Char)
    (ratio : List Char → List Char → ℚ) (t1 t2 : List Char) : ℚ :=
  if t1 = [] ∨ t2 = [] then 0
  else ratio (clean_text_for_compare adSubC t1) (clean_text_for_compare adSubC t2)

/-! The Mode B monitor of telegram_monitor.py (class TelegramMonitor). -/

/-- The cached message data relevant to duplicate detection (models the
MessageData objects stored in TelegramMonitor.message_cache). -/
structure MessageData where
  id : Nat
  original_text : List Char
  timestamp : ℚ
deriving DecidableEq

/-- The duplicate evidence dictionary built by TelegramMonitor._is_duplicate. -/
structure DupInfo where
  similarity : ℚ
  duplicate_id : Nat
  duplicate_time : ℚ
  key : List Char
deriving DecidableEq

/-- The key-match guard of the scan loop in TelegramMonitor._is_duplicate: the
cached key must be non-empty and equal to the incoming key. -/
def keyGuard (newKey cachedKey : List Char) : Bool :=
  !cachedKey.isEmpty && decide (newKey = cachedKey)

/-- The scan loop of TelegramMonitor._is_duplicate over the candidate list. -/
def scanB (adSubC : List Char → List Char) (stopWords : List (List Char))
    (ratio : List Char → List Char → ℚ) (thr : ℚ) (text newKey : List Char) :
    List MessageData → Bool × Option DupInfo
  | [] => (false, none)
  | m :: rest =>
    let cachedKey := create_comparison_key adSubC stopWords
      (clean_text_for_compare adSubC m.original_text)
    if keyGuard newKey cachedKey then
      let sim := calculate_similarityB adSubC ratio text m.original_text
      if thr < sim then
        (true, some ⟨sim, m.id, m.timestamp, newKey.take 50⟩)
      else scanB adSubC stopWords ratio thr text newKey rest
    else scanB adSubC stopWords ratio thr text newKey rest

/-- TelegramMonitor._is_duplicate: unique when the cache is empty or the
incoming key is empty; otherwise scan the newest fifty entries, newest first,
and declare duplicate on a key match whose similarity strictly exceeds the
threshold. -/
def is_duplicate (adSubC : List Char → List Char) (stopWords : List (List Char))
    (ratio : List Char → List Char → ℚ) (thr : ℚ) (cache : List MessageData)
    (text : List Char) : Bool × Option DupInfo :=
  if cache = [] then (false, none)
  else
    let newKey := create_comparison_key adSubC stopWords text
    if newKey = [] then (false, none)
    else scanB adSubC stopWords ratio thr text newKey
      ((cache.drop (cache.length - 50)).reverse)

/-- Python list slicing lst[i:] for an integer index i. -/
def pySliceFrom (i : Int) (l : List MessageData) : List MessageData :=
  if 0 ≤ i then l.drop i.toNat else l.drop (l.length - (-i).toNat)

/-- TelegramMonitor._cleanup_cache: drop entries older than the window, then,
when more than maxSize entries remain, keep the Python slice from index
(-maxSize) floor-divided by 2. -/
def cleanup_cache (maxSize : Nat) (window now : ℚ) (cache : List MessageData) :
    List MessageData :=
  let filtered := cache.filter (fun m => decide (now - window < m.timestamp))
  if maxSize < filtered.length then
    pySliceFrom (Int.fdiv (-(maxSize : Int)) 2) filtered
  else filtered

/-! Lemmas about splitting, joining and trimming. -/

theorem splitOnNl_ne_nil (l : List Char) : splitOnNl l ≠ [] := by
  cases l with
  | nil => simp [splitOnNl]
  | cons c rest =>
    rw [splitOnNl]
    cases h : splitOnNl rest with
    | nil => simp
    | cons g gs =>
      dsimp only
      split <;> simp

theorem mem_splitOnNl_no_nl : ∀ (l : List Char) (p : List Char),
    p ∈ splitOnNl l → '\n' ∉ p := by
  intro l
  induction l with
  | nil =>
    intro p hp
    simp [splitOnNl] at hp
    simp [hp]
  | cons c rest ih =>
    intro p hp
    rw [splitOnNl] at hp
    cases h : splitOnNl rest with
    | nil => exact absurd h (splitOnNl_ne_nil rest)
    | cons g gs =>
      rw [h] at hp
      dsimp only at hp
      by_cases hc : c = '\n'
      · rw [if_pos hc] at hp
        rcases List.mem_cons.mp hp with hp | hp
        · simp [hp]
        · exact ih p (h ▸ hp)
      · rw [if_neg hc] at hp
        rcases List.mem_cons.mp hp with hp | hp
        · subst hp
          intro hmem
          rcases List.mem_cons.mp hmem with hmem | hmem
          · exact hc hmem.symm
          · exact ih g (h ▸ List.mem_cons_self g gs) hmem
        · exact ih p (h ▸ List.mem_cons_of_mem g hp)

theorem joinNl_cons_cons (a b : List Char) (t : List (List Char)) :
    joinNl (a :: b :: t) = a ++ '\n' :: joinNl (b :: t) := rfl

theorem joinNl_splitOnNl (s : List Char) : joinNl (splitOnNl s) = s := by
  induction s with
  | nil => rfl
  | cons c rest ih =>
    rw [splitOnNl]
    cases h : splitOnNl rest with
    | nil => exact absurd h (splitOnNl_ne_nil rest)
    | cons g gs =>
      rw [h] at ih
      dsimp only
      by_cases hc : c = '\n'
      · rw [if_pos hc, joinNl_cons_cons, ih, hc]
        rfl
      · rw [if_neg hc]
        cases gs with
        | nil =>
          simp only [joinNl] at ih ⊢
          rw [ih]
        | cons g2 gs2 =>
          rw [joinNl_cons_cons] at ih ⊢
          rw [List.cons_append, ih]

theorem splitOnNl_no_nl (a : List Char) (h : '\n' ∉ a) : splitOnNl a = [a] := by
  induction a with
  | nil => rfl
  | cons c rest ih =>
    rw [splitOnNl, ih (fun hm => h (List.mem_cons_of_mem _ hm))]
    have hc : ¬(c = '\n') := by
      intro e
      subst e
      exact h (List.mem_cons_self _ _)
    simp [hc]

theorem splitOnNl_append_nl (a m : List Char) (h : '\n' ∉ a) :
    splitOnNl (a ++ '\n' :: m) = a :: splitOnNl m := by
  induction a with
  | nil =>
    simp only [List.nil_append]
    rw [splitOnNl]
    cases hm : splitOnNl m with
    | nil => exact absurd hm (splitOnNl_ne_nil m)
    | cons g gs => simp
  | cons c rest ih =>
    simp only [List.cons_append]
    rw [splitOnNl, ih (fun hmem => h (List.mem_cons_of_mem _ hmem))]
    have hc : ¬(c = '\n') := by
      intro e
      subst e
      exact h (List.mem_cons_self _ _)
    simp [hc]

theorem splitOnNl_joinNl : ∀ (ls : List (List Char)), ls ≠ [] →
    (∀ p ∈ ls, '\n' ∉ p) → splitOnNl (joinNl ls) = ls := by
  intro ls
  induction ls with
  | nil => intro h; exact absurd rfl h
  | cons a t ih =>
    intro _ hnl
    cases t with
    | nil => exact splitOnNl_no_nl a (hnl a (List.mem_cons_self _ _))
    | cons b t2 =>
      rw [joinNl_cons_cons, splitOnNl_append_nl _ _ (hnl a (List.mem_cons_self _ _))]
      rw [ih (by simp) (fun p hp => hnl p (List.mem_cons_of_mem _ hp))]

theorem dropWhile_head_false {p : Char → Bool} : ∀ {l : List Char} {x : Char} {xs : List Char},
    l.dropWhile p = x :: xs → p x = false := by
  intro l
  induction l with
  | nil => intro x xs h; simp [List.dropWhile] at h
  | cons c rest ih =>
    intro x xs h
    rw [List.dropWhile_cons] at h
    by_cases hc : p c
    · rw [if_pos hc] at h
      exact ih h
    · rw [if_neg hc] at h
      cases h
      simpa using hc

theorem trimRight_prefix (m : List Char) : ∃ t, trimRight m ++ t = m := by
  refine ⟨(m.reverse.takeWhile isSpaceChar).reverse, ?_⟩
  rw [trimRight, ← List.reverse_append, List.takeWhile_append_dropWhile, List.reverse_reverse]

theorem mem_trimRight {m : List Char} {c : Char} (h : c ∈ trimRight m) : c ∈ m := by
  obtain ⟨t, ht⟩ := trimRight_prefix m
  rw [← ht]
  exact List.mem_append_left _ h

theorem mem_trimLeft {m : List Char} {c : Char} (h : c ∈ trimLeft m) : c ∈ m :=
  (List.dropWhile_sublist _).subset h

theorem mem_trim {l : List Char} {c : Char} (h : c ∈ trim l) : c ∈ l :=
  mem_trimLeft (mem_trimRight h)

theorem trim_head_not_space {l : List Char} {x : Char} {xs : List Char} (h : trim l = x :: xs) :
    isSpaceChar x = false := by
  obtain ⟨t, ht⟩ := trimRight_prefix (trimLeft l)
  rw [trim] at h
  rw [h] at ht
  have h2 : trimLeft l = x :: (xs ++ t) := by
    rw [← ht]
    simp
  exact dropWhile_head_false h2

theorem trim_getLast_not_space {l : List Char} {x : Char} {xs : List Char} (h : trim l = x :: xs) :
    ∀ y, (x :: xs).getLast? = some y → isSpaceChar y = false := by
  intro y hy
  rw [trim, trimRight] at h
  have h2 : (trimLeft l).reverse.dropWhile isSpaceChar = (x :: xs).reverse := by
    rw [← h, List.reverse_reverse]
  have h3 : (x :: xs).reverse.head? = some y := by
    rw [List.head?_reverse]
    exact hy
  rcases hrev : (x :: xs).reverse with _ | ⟨z, zs⟩
  · simp [hrev] at h3
  · rw [hrev] at h2 h3
    simp only [List.head?_cons, Option.some.injEq] at h3
    subst h3
    exact dropWhile_head_false h2

theorem trim_length_le (l : List Char) : (trim l).length ≤ l.length := by
  have h1 : (trimLeft l).length ≤ l.length := (List.dropWhile_sublist _).length_le
  have h2 : (trim l).length ≤ (trimLeft l).length := by
    obtain ⟨t, ht⟩ := trimRight_prefix (trimLeft l)
    rw [trim]
    calc (trimRight (trimLeft l)).length
        ≤ (trimRight (trimLeft l)).length + t.length := Nat.le_add_right _ _
      _ = (trimLeft l).length := by rw [← List.length_append, ht]
  exact h2.trans h1

theorem dropWhile_eq_self_of_head {p : Char → Bool} {m : List Char}
    (h : ∀ x xs, m = x :: xs → p x = false) : m.dropWhile p = m := by
  cases m with
  | nil => rfl
  | cons c rest =>
    rw [List.dropWhile_cons, h c rest rfl]
    simp

theorem trim_idem (l : List Char) : trim (trim l) = trim l := by
  cases h : trim l with
  | nil => rfl
  | cons x xs =>
    have hh := trim_head_not_space h
    rw [trim, trimLeft]
    have h1 : (x :: xs).dropWhile isSpaceChar = x :: xs := by
      rw [List.dropWhile_cons, hh]
      simp
    rw [h1, trimRight]
    have h2 : (x :: xs).reverse.dropWhile isSpaceChar = (x :: xs).reverse := by
      apply dropWhile_eq_self_of_head
      intro z zs hz
      have hz2 : (x :: xs).reverse.head? = some z := by rw [hz]; rfl
      rw [List.head?_reverse] at hz2
      exact trim_getLast_not_space h z hz2
    rw [h2, List.reverse_reverse]

/-! Lemmas about the newline-collapsing state machine. -/

theorem goN_no_nl : ∀ (m : List Char), '\n' ∉ m → ∀ k, goN k m = m := by
  intro m
  induction m with
  | nil => intro _ k; rfl
  | cons c rest ih =>
    intro h k
    have hc : ¬(c = '\n') := by
      intro e
      subst e
      exact h (List.mem_cons_self _ _)
    simp only [goN, if_neg hc]
    rw [ih (fun hm => h (List.mem_cons_of_mem _ hm)) 0]

theorem goN_append : ∀ (l : List Char), '\n' ∉ l → l ≠ [] →
    ∀ (k : Nat) (m : List Char), goN k (l ++ m) = l ++ goN 0 m := by
  intro l
  induction l with
  | nil => intro _ hne; exact absurd rfl hne
  | cons c rest ih =>
    intro hnl _ k m
    have hc : ¬(c = '\n') := by
      intro e
      subst e
      exact hnl (List.mem_cons_self _ _)
    by_cases hr : rest = []
    · subst hr
      simp [goN, hc]
    · have ih2 := ih (fun hm => hnl (List.mem_cons_of_mem _ hm)) hr 0 m
      simp [goN, hc, ih2]

theorem goN_joinNl : ∀ (ls : List (List Char)), (∀ p ∈ ls, p ≠ [] ∧ '\n' ∉ p) →
    ∀ k, goN k (joinNl ls) = joinNl ls := by
  intro ls
  induction ls with
  | nil => intro _ k; rfl
  | cons a t ih =>
    intro h k
    obtain ⟨ha_ne, ha_nl⟩ := h a (List.mem_cons_self _ _)
    cases t with
    | nil => exact goN_no_nl a ha_nl k
    | cons b t2 =>
      rw [joinNl_cons_cons]
      rw [goN_append a ha_nl ha_ne k ('\n' :: joinNl (b :: t2))]
      congr 1
      have hstep : goN 0 ('\n' :: joinNl (b :: t2)) = '\n' :: goN 1 (joinNl (b :: t2)) := rfl
      rw [hstep, ih (fun p hp => h p (List.mem_cons_of_mem _ hp)) 1]

theorem goN_length_le : ∀ (k : Nat) (m : List Char), (goN k m).length ≤ m.length := by
  intro k m
  induction m generalizing k with
  | nil => simp [goN]
  | cons c rest ih =>
    simp only [goN]
    by_cases hc : c = '\n'
    · rw [if_pos hc]
      by_cases hk : k < 2
      · rw [if_pos hk]
        simpa using Nat.succ_le_succ (ih (k + 1))
      · rw [if_neg hk]
        exact (ih k).trans (Nat.le_succ _)
    · rw [if_neg hc]
      simpa using Nat.succ_le_succ (ih 0)

/-! Length bookkeeping for joined line lists. -/

theorem joinNl_length : ∀ (ls : List (List Char)),
    (joinNl ls).length = (ls.map List.length).sum + (ls.length - 1) := by
  intro ls
  induction ls with
  | nil => rfl
  | cons a t ih =>
    cases t with
    | nil => simp [joinNl]
    | cons b t2 =>
      rw [joinNl_cons_cons]
      simp only [List.length_append, List.length_cons, ih, List.map_cons, List.sum_cons,
        List.length_map] at *
      omega

theorem sum_le_sum_of_sublist : ∀ {ls1 ls2 : List Nat}, List.Sublist ls1 ls2 →
    ls1.sum ≤ ls2.sum := by
  intro ls1 ls2 h
  induction h with
  | slnil => exact Nat.le_refl 0
  | cons a _ ih => simpa using ih.trans (Nat.le_add_left _ _)
  | cons₂ a _ ih => simpa using Nat.add_le_add_left ih a

theorem joinNl_length_sublist {ls1 ls2 : List (List Char)} (h : List.Sublist ls1 ls2) :
    (joinNl ls1).length ≤ (joinNl ls2).length := by
  rw [joinNl_length, joinNl_length]
  have hsum : (ls1.map List.length).sum ≤ (ls2.map List.length).sum :=
    sum_le_sum_of_sublist (h.map List.length)
  have hlen : ls1.length ≤ ls2.length := h.length_le
  omega

theorem joinNl_map_trim_length (ls : List (List Char)) :
    (joinNl (ls.map trim)).length ≤ (joinNl ls).length := by
  rw [joinNl_length, joinNl_length]
  have hsum : ((ls.map trim).map List.length).sum ≤ (ls.map List.length).sum := by
    induction ls with
    | nil => simp
    | cons a t ih =>
      simp only [List.map_cons, List.sum_cons]
      exact Nat.add_le_add (trim_length_le a) ih
  simp only [List.length_map]
  omega

/-! Lemmas about whitespace tokenization. -/

theorem wordsAux_props : ∀ (l acc : List Char), (∀ c ∈ acc, isSpaceChar c = false) →
    ∀ w ∈ wordsAux l acc, w ≠ [] ∧ ∀ c ∈ w, isSpaceChar c = false := by
  intro l
  induction l with
  | nil =>
    intro acc hacc w hw
    by_cases ha : acc = []
    · simp [wordsAux, ha] at hw
    · simp only [wordsAux, if_neg ha, List.mem_singleton] at hw
      subst hw
      refine ⟨by simpa using ha, ?_⟩
      intro c hc
      exact hacc c (List.mem_reverse.mp hc)
  | cons c rest ih =>
    intro acc hacc w hw
    rw [wordsAux] at hw
    by_cases hs : isSpaceChar c
    · rw [if_pos hs] at hw
      by_cases ha : acc = []
      · rw [if_pos ha] at hw
        exact ih [] (by simp) w hw
      · rw [if_neg ha] at hw
        rcases List.mem_cons.mp hw with hw | hw
        · subst hw
          refine ⟨by simpa using ha, ?_⟩
          intro x hx
          exact hacc x (List.mem_reverse.mp hx)
        · exact ih [] (by simp) w hw
    · rw [if_neg hs] at hw
      refine ih (c :: acc) ?_ w hw
      intro x hx
      rcases List.mem_cons.mp hx with hx | hx
      · subst hx
        simpa using hs
      · exact hacc x hx

theorem wordsAux_append_word : ∀ (w : List Char), (∀ c ∈ w, isSpaceChar c = false) →
    ∀ (r acc : List Char), wordsAux (w ++ r) acc = wordsAux r (w.reverse ++ acc) := by
  intro w
  induction w with
  | nil => intro _ r acc; simp
  | cons c wrest ih =>
    intro h r acc
    have hc : isSpaceChar c = false := h c (List.mem_cons_self _ _)
    simp only [List.cons_append, wordsAux, hc, Bool.false_eq_true, if_false]
    rw [show wrest.append r = wrest ++ r from rfl,
      ih (fun x hx => h x (List.mem_cons_of_mem _ hx)) r (c :: acc)]
    simp

theorem joinSpace_cons_cons (w b : List Char) (t : List (List Char)) :
    joinSpace (w :: b :: t) = w ++ ' ' :: joinSpace (b :: t) := rfl

theorem wordsOf_joinSpace : ∀ (ws : List (List Char)),
    (∀ w ∈ ws, w ≠ [] ∧ ∀ c ∈ w, isSpaceChar c = false) →
    wordsOf (joinSpace ws) = ws := by
  intro ws
  induction ws with
  | nil => intro _; rfl
  | cons w t ih =>
    intro h
    obtain ⟨hw_ne, hw_ns⟩ := h w (List.mem_cons_self _ _)
    cases t with
    | nil =>
      show wordsAux (joinSpace [w]) [] = [w]
      have hj : joinSpace [w] = w ++ [] := by simp [joinSpace]
      rw [hj, wordsAux_append_word w hw_ns [] []]
      simp [wordsAux, hw_ne]
    | cons b t2 =>
      rw [joinSpace_cons_cons]
      show wordsAux (w ++ ' ' :: joinSpace (b :: t2)) [] = w :: b :: t2
      rw [wordsAux_append_word w hw_ns _ []]
      simp only [List.append_nil]
      rw [wordsAux]
      have hsp : isSpaceChar ' ' = true := rfl
      rw [if_pos hsp]
      have hrev : ¬(w.reverse = []) := by simpa using hw_ne
      rw [if_neg hrev, List.reverse_reverse]
      have hrest := ih (fun p hp => h p (List.mem_cons_of_mem _ hp))
      rw [show wordsAux (joinSpace (b :: t2)) [] = wordsOf (joinSpace (b :: t2)) from rfl, hrest]

theorem tokenSet_normalize_ne_empty {a : List Char} (h : normalize_text a ≠ []) :
    tokenSet (normalize_text a) ≠ ∅ := by
  by_cases ht : a = []
  · subst ht
    simp [normalize_text] at h
  · rw [normalize_text, if_neg ht] at h ⊢
    have hprops : ∀ w ∈ wordsOf
        (punctToSpace (subTag '@' (subUrls ((remove_hashtags a).map lowerChar)))),
        w ≠ [] ∧ ∀ c ∈ w, isSpaceChar c = false :=
      wordsAux_props _ [] (by simp)
    have hws_ne :
        wordsOf (punctToSpace (subTag '@' (subUrls ((remove_hashtags a).map lowerChar)))) ≠ [] := by
      intro he
      rw [he] at h
      exact h rfl
    rw [tokenSet, wordsOf_joinSpace _ hprops]
    cases hws : wordsOf (punctToSpace (subTag '@' (subUrls ((remove_hashtags a).map lowerChar)))) with
    | nil => exact absurd hws hws_ne
    | cons w t => simp

theorem mkRat_card_eq_div (a b : Nat) :
    mkRat (a : Int) b = (a : ℚ) / (b : ℚ) := by
  rw [Rat.mkRat_eq_divInt, Rat.divInt_eq_div]
  norm_num

theorem calculate_similarity_self {a : List Char} (h : normalize_text a ≠ []) :
    calculate_similarity (normalize_text a) (normalize_text a) = 1 := by
  rw [calculate_similarity]
  have h1 : ¬(normalize_text a = [] ∨ normalize_text a = []) := by simp [h]
  rw [if_neg h1]
  have hne := tokenSet_normalize_ne_empty h
  have h2 : ¬(tokenSet (normalize_text a) = ∅ ∨ tokenSet (normalize_text a) = ∅) := by
    simp [hne]
  rw [if_neg h2, Finset.inter_self, Finset.union_self, mkRat_card_eq_div, div_self]
  have hcard : (tokenSet (normalize_text a)).card ≠ 0 := by
    simpa [Finset.card_eq_zero] using hne
  exact_mod_cast hcard

/-! Claim C1: Jaccard score bounds. -/

/-- Claim C1, counterexample: the text consisting of a single exclamation mark
is non-empty, yet its Jaccard self-score is 0, not 1, because normalization
erases it completely; so the claim as stated is false. -/
theorem C1_counterexample :
    ("!".toList ≠ []) ∧ jaccardScore "!".toList "!".toList = 0 := by
  constructor
  · decide
  · decide

/-- Claim C1 (amended): for all texts a and b the Jaccard word-overlap score
lies in [0, 1]; the self-score is 1 for every text whose normalized form is
non-empty (rather than for every non-empty text); and the score against the
empty text is 0. -/
theorem C1_jaccard_bounds (a b : List Char) :
    0 ≤ jaccardScore a b ∧ jaccardScore a b ≤ 1 ∧
    (normalize_text a ≠ [] → jaccardScore a a = 1) ∧ jaccardScore a [] = 0 := by
  refine ⟨?_, ?_, ?_, ?_⟩
  · rw [jaccardScore, calculate_similarity]
    split_ifs with h1 h2
    · exact le_refl 0
    · exact le_refl 0
    · rw [mkRat_card_eq_div]
      positivity
  · rw [jaccardScore, calculate_similarity]
    split_ifs with h1 h2
    · norm_num
    · norm_num
    · rw [mkRat_card_eq_div]
      push_neg at h2
      have hpos : 0 < ((tokenSet (normalize_text a) ∪ tokenSet (normalize_text b)).card : ℚ) := by
        have hne : (tokenSet (normalize_text a)).Nonempty :=
          Finset.nonempty_iff_ne_empty.mpr h2.1
        have hun : (tokenSet (normalize_text a) ∪ tokenSet (normalize_text b)).Nonempty :=
          hne.mono Finset.subset_union_left
        exact_mod_cast Finset.card_pos.mpr hun
      rw [div_le_one hpos]
      exact_mod_cast Finset.card_le_card Finset.inter_subset_union
  · intro hna
    rw [jaccardScore]
    exact calculate_similarity_self hna
  · rw [jaccardScore, calculate_similarity]
    have h1 : normalize_text a = [] ∨ normalize_text ([] : List Char) = [] := by
      right
      rfl
    rw [if_pos h1]

/-- Claim C1, witness: the amended theorem applied to a concrete text with
non-empty normalized form. -/
theorem C1_witness :
    normalize_text "hello world".toList ≠ [] ∧
    jaccardScore "hello world".toList "hello world".toList = 1 :=
  ⟨by decide, (C1_jaccard_bounds "hello world".toList "hello world".toList).2.2.1 (by decide)⟩

/-! Claim C2: threshold boundary asymmetry between the two modes. -/

/-- Claim C2: when the computed similarity of the incoming message and a cached
message is exactly the configured threshold, Mode A (is_similar_message, which
compares with greater-or-equal) classifies the incoming message as a
duplicate, while Mode B (is_duplicate, which compares with strict
greater-than) classifies it as unique. -/
theorem C2_threshold_boundary :
    (∀ (thr w now ts : ℚ) (a b : List Char), 0 < thr →
      calculate_similarity (normalize_text a) (normalize_text b) = thr →
      now - w * 3600 < ts →
      (is_similar_message thr w [(normalize_text b, ts, b)] a now).1.1 = true) ∧
    (∀ (adSubC : List Char → List Char) (sw : List (List Char))
      (ratio : List Char → List Char → ℚ) (thr : ℚ) (m : MessageData) (a : List Char),
      calculate_similarityB adSubC ratio a m.original_text = thr →
      (is_duplicate adSubC sw ratio thr [m] a).1 = false) := by
  constructor
  · intro thr w now ts a b hthr hsim hts
    have hclean : clean_old_messages w now [(normalize_text b, ts, b)] =
        [(normalize_text b, ts, b)] := by
      simp [clean_old_messages, hts]
    have hnn : normalize_text a ≠ [] := by
      intro he
      rw [he] at hsim
      simp [calculate_similarity] at hsim
      rw [← hsim] at hthr
      exact lt_irrefl 0 hthr
    have hscan : scanA thr (normalize_text a) [(normalize_text b, ts, b)] =
        some (thr, b) := by
      simp [scanA, hsim]
    simp only [is_similar_message, hclean, hscan, if_neg hnn]
  · intro adSubC sw ratio thr m a hsim
    simp only [is_duplicate]
    rw [if_neg (by simp : ¬([m] = ([] : List MessageData)))]
    by_cases hk : create_comparison_key adSubC sw a = []
    · rw [if_pos hk]
    · rw [if_neg hk]
      have hlist : ((([m] : List MessageData).drop ([m].length - 50)).reverse) = [m] := by
        simp
      rw [hlist]
      simp only [scanB]
      by_cases hg : keyGuard (create_comparison_key adSubC sw a)
          (create_comparison_key adSubC sw (clean_text_for_compare adSubC m.original_text)) = true
      · rw [if_pos hg, hsim, if_neg (lt_irrefl thr)]
      · rw [if_neg hg]

/-- Claim C2, witness: both parts of the boundary theorem applied to concrete
messages whose similarity equals the threshold 1. -/
theorem C2_witness :
    ((0 : ℚ) < 1 ∧
      calculate_similarity (normalize_text "hello world".toList)
        (normalize_text "hello world".toList) = 1 ∧
      (0 : ℚ) - 1 * 3600 < 0 ∧
      (is_similar_message 1 1 [(normalize_text "hello world".toList, 0, "hello world".toList)]
        "hello world".toList 0).1.1 = true) ∧
    (calculate_similarityB id (fun _ _ => 1) "a".toList
      (MessageData.mk 1 "b".toList 0).original_text = 1 ∧
      (is_duplicate id [] (fun _ _ => 1) 1 [MessageData.mk 1 "b".toList 0] "a".toList).1 = false) := by
  constructor
  · refine ⟨by norm_num, calculate_similarity_self (by decide), by norm_num, ?_⟩
    exact C2_threshold_boundary.1 1 1 0 0 "hello world".toList "hello world".toList
      (by norm_num) (calculate_similarity_self (by decide)) (by norm_num)
  · refine ⟨rfl, ?_⟩
    exact C2_threshold_boundary.2 id [] (fun _ _ => 1) 1 (MessageData.mk 1 "b".toList 0)
      "a".toList rfl

/-! Claim C9: empty comparison keys never match. -/

/-- Claim C9: in Mode B an incoming text with an empty comparison key is
declared unique immediately (no cached entry is matched), and the key-match
guard of the scan loop rejects every pair in which either key is empty,
including the pair of two empty keys. -/
theorem C9_empty_key_unique :
    (∀ (adSubC : List Char → List Char) (sw : List (List Char))
      (ratio : List Char → List Char → ℚ) (thr : ℚ) (cache : List MessageData)
      (text : List Char),
      create_comparison_key adSubC sw text = [] →
      is_duplicate adSubC sw ratio thr cache text = (false, none)) ∧
    (∀ k : List Char, keyGuard k [] = false ∧ keyGuard [] k = false) := by
  constructor
  · intro adSubC sw ratio thr cache text hk
    simp only [is_duplicate]
    by_cases hc : cache = []
    · rw [if_pos hc]
    · rw [if_neg hc, if_pos hk]
  · intro k
    constructor
    · rfl
    · cases k with
      | nil => rfl
      | cons c rest => simp [keyGuard]

/-- Claim C9, witness: a concrete short text whose key is empty is unique even
against a cache whose entry would match under a constant similarity of 1. -/
theorem C9_witness :
    create_comparison_key id [] "hi".toList = [] ∧
    is_duplicate id [] (fun _ _ => 1) 1 [MessageData.mk 1 "some cached text".toList 0]
      "hi".toList = (false, none) :=
  ⟨by decide, C9_empty_key_unique.1 id [] (fun _ _ => 1) 1
    [MessageData.mk 1 "some cached text".toList 0] "hi".toList (by decide)⟩

/-! Claim C5: the key-builder rejection floor. -/

/-- Claim C5: whenever the comparison-normalized content is shorter than 20
characters, or fewer than 3 significant tokens remain, create_comparison_key
returns the empty string. -/
theorem C5_key_rejection (adSubC : List Char → List Char) (sw : List (List Char))
    (t : List Char)
    (h : (contentOf adSubC t).length < 20 ∨ (sigWordsOf adSubC sw t).length < 3) :
    create_comparison_key adSubC sw t = [] := by
  simp only [create_comparison_key]
  by_cases h1 : clean_text_for_compare adSubC t = []
  · rw [if_pos h1]
  · rw [if_neg h1]
    by_cases h2 : mainLinesOf adSubC t = []
    · rw [if_pos h2]
    · rw [if_neg h2]
      by_cases h3 : (contentOf adSubC t).length < 20
      · rw [if_pos h3]
      · rw [if_neg h3]
        rcases h with h | h
        · exact absurd h h3
        · rw [if_pos h]

/-- Claim C5, witness: a concrete two-character text falls under the 20
character floor and produces the empty key. -/
theorem C5_witness :
    (contentOf id "hi".toList).length < 20 ∧ create_comparison_key id [] "hi".toList = [] :=
  ⟨by decide, C5_key_rejection id [] "hi".toList (Or.inl (by decide))⟩

/-! Claim C8: cache writes of the Mode A detector. -/

/-- Claim C8, counterexample: with an expired entry in the cache, a message
classified as duplicate still leaves the cache changed (the window cleanup
that runs inside the check removed the expired entry), so the claim that the
cache is left unchanged on a duplicate is false as stated. -/
theorem C8_counterexample :
    (is_similar_message 1 1 [("old".toList, -1000000, "old".toList),
        ("hello".toList, 0, "hello".toList)] "hello".toList 0).1.1 = true ∧
    (is_similar_message 1 1 [("old".toList, -1000000, "old".toList),
        ("hello".toList, 0, "hello".toList)] "hello".toList 0).2 ≠
      [("old".toList, -1000000, "old".toList), ("hello".toList, 0, "hello".toList)] := by
  have hclean : clean_old_messages 1 0 [("old".toList, -1000000, "old".toList),
      ("hello".toList, 0, "hello".toList)] = [("hello".toList, 0, "hello".toList)] := by
    simp only [clean_old_messages, List.filter_cons, List.filter_nil, decide_eq_true_eq]
    rw [if_neg (by norm_num), if_pos (by norm_num)]
  have hnn : normalize_text "hello".toList ≠ [] := by decide
  have hscan : scanA 1 (normalize_text "hello".toList)
      [("hello".toList, 0, "hello".toList)] = some (1, "hello".toList) := by decide
  constructor
  · simp only [is_similar_message, hclean, hscan, if_neg hnn]
  · simp only [is_similar_message, hclean, hscan, if_neg hnn]
    intro he
    have hlen := congrArg List.length he
    simp at hlen

/-- Claim C8 (amended): relative to the window cleanup that is_similar_message
always performs first, the detector inserts nothing when the verdict is
duplicate; when the verdict is unique it appends exactly one entry
(normalized text, timestamp, original text) provided the normalized text is
non-empty, and inserts nothing when the normalized text is empty. -/
theorem C8_cache_writes (thr w : ℚ) (recent : List AEntry) (a : List Char) (now : ℚ) :
    ((is_similar_message thr w recent a now).1.1 = true →
      (is_similar_message thr w recent a now).2 = clean_old_messages w now recent) ∧
    ((is_similar_message thr w recent a now).1.1 = false →
      (normalize_text a ≠ [] →
        (is_similar_message thr w recent a now).2 =
          clean_old_messages w now recent ++ [(normalize_text a, now, a)]) ∧
      (normalize_text a = [] →
        (is_similar_message thr w recent a now).2 = clean_old_messages w now recent)) := by
  simp only [is_similar_message]
  by_cases hn : normalize_text a = []
  · rw [if_pos hn]
    refine ⟨fun h => by simp at h, fun _ => ⟨fun hna => absurd hn hna, fun _ => rfl⟩⟩
  · rw [if_neg hn]
    cases hscan : scanA thr (normalize_text a) (clean_old_messages w now recent) with
    | some info =>
      refine ⟨fun _ => rfl, fun hfalse => by simp at hfalse⟩
    | none =>
      refine ⟨fun htrue => by simp at htrue, fun _ => ⟨fun _ => rfl, fun he => absurd he hn⟩⟩

/-- Claim C8, witness: the amended theorem applied to an empty cache and a
unique message with non-empty normalized text appends exactly its entry. -/
theorem C8_witness :
    (is_similar_message 1 1 [] "hello".toList 0).1.1 = false ∧
    (is_similar_message 1 1 [] "hello".toList 0).2 =
      clean_old_messages 1 0 [] ++ [(normalize_text "hello".toList, 0, "hello".toList)] :=
  ⟨by decide, ((C8_cache_writes 1 1 [] "hello".toList 0).2 (by decide)).1 (by decide)⟩

/-! Claim C6: window eviction of the Mode B cache. -/

theorem fdiv_neg_two (m : Nat) (h : 1 ≤ m) :
    Int.fdiv (-(m : Int)) 2 = -(((m + 1) / 2 : Nat) : Int) := by
  obtain ⟨k, rfl⟩ : ∃ k, m = k + 1 := ⟨m - 1, by omega⟩
  have h1 : (-(((k + 1 : Nat) : Int))) = Int.negSucc k := by
    simp [Int.negSucc_eq]
  rw [h1]
  have h2 : Int.fdiv (Int.negSucc k) 2 = Int.negSucc (k / 2) := rfl
  rw [h2, Int.negSucc_eq]
  have h3 : ((k + 1 + 1) / 2 : Nat) = k / 2 + 1 := by omega
  rw [h3]
  push_cast
  ring

/-- Claim C6, counterexample: with maxSize 3 and four fresh entries, the
overflow trim keeps the newest 2 entries, not the newest floor(3/2) = 1: the
Python slice index (-maxSize) floor-divided by 2 keeps the newest ceiling of
maxSize over 2 entries for odd maxSize. -/
theorem C6_counterexample :
    3 < (([⟨1, [], 0⟩, ⟨2, [], 0⟩, ⟨3, [], 0⟩, ⟨4, [], 0⟩] : List MessageData).filter
      (fun m => decide ((0 : ℚ) - 10 < m.timestamp))).length ∧
    (cleanup_cache 3 10 0
      [⟨1, [], 0⟩, ⟨2, [], 0⟩, ⟨3, [], 0⟩, ⟨4, [], 0⟩]).length ≠ 3 / 2 := by
  have hfil : (([⟨1, [], 0⟩, ⟨2, [], 0⟩, ⟨3, [], 0⟩, ⟨4, [], 0⟩] : List MessageData).filter
      (fun m => decide ((0 : ℚ) - 10 < m.timestamp))) =
      [⟨1, [], 0⟩, ⟨2, [], 0⟩, ⟨3, [], 0⟩, ⟨4, [], 0⟩] := by
    simp only [List.filter_cons, List.filter_nil, decide_eq_true_eq]
    rw [if_pos (by norm_num), if_pos (by norm_num), if_pos (by norm_num),
      if_pos (by norm_num)]
  refine ⟨by rw [hfil]; norm_num, ?_⟩
  simp only [cleanup_cache, hfil]
  rw [if_pos (by norm_num)]
  decide

/-- Claim C6 (amended): after eviction no remaining entry is at or before the
window cutoff and the cache size is at most maxSize (for maxSize at least 1);
when the time-filtered cache still exceeds maxSize, exactly the newest
ceiling(maxSize / 2) = (maxSize + 1) / 2 entries are kept (not the newest
floor(maxSize / 2)). -/
theorem C6_eviction (maxSize : Nat) (h : 1 ≤ maxSize) (window now : ℚ)
    (cache : List MessageData) :
    (∀ m ∈ cleanup_cache maxSize window now cache, ¬(m.timestamp ≤ now - window)) ∧
    (cleanup_cache maxSize window now cache).length ≤ maxSize ∧
    (maxSize < (cache.filter (fun m => decide (now - window < m.timestamp))).length →
      cleanup_cache maxSize window now cache =
        (cache.filter (fun m => decide (now - window < m.timestamp))).drop
          ((cache.filter (fun m => decide (now - window < m.timestamp))).length -
            (maxSize + 1) / 2)) := by
  have hslice : pySliceFrom (Int.fdiv (-(maxSize : Int)) 2)
      (cache.filter (fun m => decide (now - window < m.timestamp))) =
      (cache.filter (fun m => decide (now - window < m.timestamp))).drop
        ((cache.filter (fun m => decide (now - window < m.timestamp))).length -
          (maxSize + 1) / 2) := by
    rw [fdiv_neg_two maxSize h, pySliceFrom]
    rw [if_neg (by omega : ¬(0 : Int) ≤ -(((maxSize + 1) / 2 : Nat) : Int))]
    congr 1
    omega
  refine ⟨?_, ?_, ?_⟩
  · intro m hm
    have hmf : m ∈ cache.filter (fun m => decide (now - window < m.timestamp)) := by
      simp only [cleanup_cache] at hm
      by_cases hov : maxSize <
          (cache.filter (fun m => decide (now - window < m.timestamp))).length
      · rw [if_pos hov, hslice] at hm
        exact List.mem_of_mem_drop hm
      · rw [if_neg hov] at hm
        exact hm
    have hts := List.mem_filter.mp hmf
    simp only [decide_eq_true_eq] at hts
    exact not_le.mpr hts.2
  · simp only [cleanup_cache]
    by_cases hov : maxSize <
        (cache.filter (fun m => decide (now - window < m.timestamp))).length
    · rw [if_pos hov, hslice]
      simp only [List.length_drop]
      omega
    · rw [if_neg hov]
      omega
  · intro hov
    simp only [cleanup_cache]
    rw [if_pos hov, hslice]

/-- Claim C6, witness: the amended eviction theorem applied to a concrete
overfull cache with maxSize 3 keeps exactly the newest two entries. -/
theorem C6_witness :
    (1 ≤ 3) ∧
    (3 < (([⟨1, [], 0⟩, ⟨2, [], 0⟩, ⟨3, [], 0⟩, ⟨4, [], 0⟩] : List MessageData).filter
      (fun m => decide ((10 : ℚ) - 20 < m.timestamp))).length →
      cleanup_cache 3 20 10 [⟨1, [], 0⟩, ⟨2, [], 0⟩, ⟨3, [], 0⟩, ⟨4, [], 0⟩] =
        (([⟨1, [], 0⟩, ⟨2, [], 0⟩, ⟨3, [], 0⟩, ⟨4, [], 0⟩] : List MessageData).filter
          (fun m => decide ((10 : ℚ) - 20 < m.timestamp))).drop
          ((([⟨1, [], 0⟩, ⟨2, [], 0⟩, ⟨3, [], 0⟩, ⟨4, [], 0⟩] : List MessageData).filter
            (fun m => decide ((10 : ℚ) - 20 < m.timestamp))).length - (3 + 1) / 2)) :=
  ⟨by norm_num,
    (C6_eviction 3 (by norm_num) 20 10 [⟨1, [], 0⟩, ⟨2, [], 0⟩, ⟨3, [], 0⟩, ⟨4, [], 0⟩]).2.2⟩

/-! Lemmas about the forwarding cleaner pipeline. -/

theorem getLast?_append_right {l₁ l₂ : List Char} {b : Char} (h : l₂.getLast? = some b) :
    (l₁ ++ l₂).getLast? = some b := by
  rw [List.getLast?_append, h]
  rfl

theorem getLast?_some_of_ne_nil (X : List Char) (h : X ≠ []) : ∃ y, X.getLast? = some y := by
  cases hX : X.getLast? with
  | some y => exact ⟨y, rfl⟩
  | none =>
    rw [List.getLast?_eq_none_iff] at hX
    exact absurd hX h

theorem trim_eq_self_of_ends {m : List Char}
    (hhead : ∀ x xs, m = x :: xs → isSpaceChar x = false)
    (hlast : ∀ x, m.getLast? = some x → isSpaceChar x = false) : trim m = m := by
  rw [trim, trimLeft, dropWhile_eq_self_of_head hhead, trimRight,
    dropWhile_eq_self_of_head ?hrev, List.reverse_reverse]
  case hrev =>
    intro x xs hx
    apply hlast
    rw [← List.head?_reverse, hx]
    rfl

theorem joinNl_ne_nil_of : ∀ (ls : List (List Char)), ls ≠ [] →
    (∀ p ∈ ls, p ≠ []) → joinNl ls ≠ [] := by
  intro ls hne hp
  cases ls with
  | nil => exact absurd rfl hne
  | cons a t =>
    have ha := hp a (List.mem_cons_self _ _)
    cases t with
    | nil => exact ha
    | cons b t2 =>
      rw [joinNl_cons_cons]
      cases ha2 : a with
      | nil => exact absurd ha2 ha
      | cons c crest => simp

theorem joinNl_head_not_space (ls : List (List Char))
    (h : ∀ p ∈ ls, p ≠ [] ∧ trim p = p) :
    ∀ x xs, joinNl ls = x :: xs → isSpaceChar x = false := by
  intro x xs hj
  cases ls with
  | nil => simp [joinNl] at hj
  | cons a t =>
    obtain ⟨ha, hta⟩ := h a (List.mem_cons_self _ _)
    cases ha2 : a with
    | nil => exact absurd ha2 ha
    | cons c crest =>
      have hx : c = x := by
        cases t with
        | nil =>
          rw [ha2] at hj
          simp only [joinNl] at hj
          injection hj
        | cons b t2 =>
          rw [joinNl_cons_cons, ha2, List.cons_append] at hj
          injection hj
      subst hx
      exact trim_head_not_space (show trim a = c :: crest by rw [hta, ha2])

theorem joinNl_getLast_not_space : ∀ (ls : List (List Char)),
    (∀ p ∈ ls, p ≠ [] ∧ trim p = p) →
    ∀ x, (joinNl ls).getLast? = some x → isSpaceChar x = false := by
  intro ls
  induction ls with
  | nil =>
    intro _ x hx
    simp [joinNl] at hx
  | cons a t ih =>
    intro h x hx
    cases t with
    | nil =>
      obtain ⟨ha, hta⟩ := h a (List.mem_cons_self _ _)
      simp only [joinNl] at hx
      cases ha2 : a with
      | nil => exact absurd ha2 ha
      | cons c crest =>
        apply trim_getLast_not_space (show trim a = c :: crest by rw [hta, ha2]) x
        rw [← ha2]
        exact hx
    | cons b t2 =>
      rw [joinNl_cons_cons] at hx
      have hjne : joinNl (b :: t2) ≠ [] := by
        apply joinNl_ne_nil_of _ (by simp)
        intro p hp
        exact (h p (List.mem_cons_of_mem _ hp)).1
      obtain ⟨y, hy⟩ := getLast?_some_of_ne_nil _ hjne
      have hlast2 : ('\n' :: joinNl (b :: t2)).getLast? = some y := by
        rw [show ('\n' :: joinNl (b :: t2)) = ['\n'] ++ joinNl (b :: t2) from rfl]
        exact getLast?_append_right hy
      rw [getLast?_append_right hlast2, Option.some.injEq] at hx
      subst hx
      exact ih (fun p hp => h p (List.mem_cons_of_mem _ hp)) y hy

theorem forwardKept_props (adSubF : List Char → List Char) (t : List Char) :
    ∀ l ∈ forwardKept adSubF t, l ≠ [] ∧ '\n' ∉ l ∧ trim l = l := by
  intro l hl
  rw [forwardKept] at hl
  obtain ⟨hmem, hcond⟩ := List.mem_filter.mp hl
  obtain ⟨l0, hl0, rfl⟩ := List.mem_map.mp hmem
  have hnl0 : '\n' ∉ l0 := mem_splitOnNl_no_nl _ l0 hl0
  refine ⟨?_, ?_, trim_idem l0⟩
  · simp only [Bool.and_eq_true, Bool.not_eq_true'] at hcond
    intro he
    rw [he] at hcond
    simp at hcond
  · intro hmem2
    exact hnl0 (mem_trim hmem2)

theorem forwardResult_eq_joinNl (adSubF : List Char → List Char) (t : List Char) :
    forwardResult adSubF t = joinNl (forwardKept adSubF t) := by
  rw [forwardResult]
  have hprops := forwardKept_props adSubF t
  have h1 : collapseNl (joinNl (forwardKept adSubF t)) = joinNl (forwardKept adSubF t) := by
    rw [collapseNl]
    exact goN_joinNl _ (fun p hp => ⟨(hprops p hp).1, (hprops p hp).2.1⟩) 0
  rw [h1]
  apply trim_eq_self_of_ends
  · exact joinNl_head_not_space _ (fun p hp => ⟨(hprops p hp).1, (hprops p hp).2.2⟩)
  · exact joinNl_getLast_not_space _ (fun p hp => ⟨(hprops p hp).1, (hprops p hp).2.2⟩)

/-! Claim C3: separator-run lines. -/

/-- Claim C3, counterexample: a pure separator-run line of dashes survives the
forwarding cleaner verbatim, so the claim that strip_ads drops such lines is
false: only the comparison cleaner drops them. -/
theorem C3_counterexample :
    isSepLine "----".toList = true ∧
    (clean_text_for_forward id true "----\nkeep me".toList).1 = "----\nkeep me".toList := by
  constructor
  · decide
  · decide

/-- Claim C3 (amended): separator-run lines are dropped by the comparison
cleaner (no line of its output matches the separator pattern unless the output
is the empty text), while the forwarding cleaner drops only the whitespace-only
ones among them (no line of its output strips to empty unless the output is
the empty text); separator lines with visible characters are retained there. -/
theorem C3_separator_lines (adSubC adSubF : List Char → List Char) (t l : List Char) :
    (isSepLine l = true → l ∈ splitOnNl (clean_text_for_compare adSubC t) →
      clean_text_for_compare adSubC t = []) ∧
    (l ∈ splitOnNl ((clean_text_for_forward adSubF true t).1) → trim l = [] →
      (clean_text_for_forward adSubF true t).1 = []) := by
  constructor
  · intro hsep hmem
    by_cases hcl : clean_text_for_compare adSubC t = []
    · exact hcl
    · exfalso
      rw [clean_text_for_compare] at hcl hmem
      by_cases ht : t = []
      · rw [if_pos ht] at hcl
        exact hcl rfl
      · rw [if_neg ht] at hcl hmem
        have hkne : ((splitOnNl (adSubC t)).map trim).filter keepCompareLine ≠ [] := by
          intro he
          rw [he] at hcl
          exact hcl rfl
        have hknl : ∀ p ∈ ((splitOnNl (adSubC t)).map trim).filter keepCompareLine,
            '\n' ∉ p := by
          intro p hp
          obtain ⟨p0, hp0, rfl⟩ := List.mem_map.mp (List.mem_filter.mp hp).1
          intro hc
          exact mem_splitOnNl_no_nl _ p0 hp0 (mem_trim hc)
        rw [splitOnNl_joinNl _ hkne hknl] at hmem
        have hcond := (List.mem_filter.mp hmem).2
        rw [keepCompareLine] at hcond
        simp [hsep] at hcond
  · intro hmem htr
    by_cases hres : (clean_text_for_forward adSubF true t).1 = []
    · exact hres
    · exfalso
      rw [clean_text_for_forward] at hres hmem
      by_cases ht : t = []
      · rw [if_pos (Or.inl ht)] at hres
        exact hres ht
      · rw [if_neg (by simp [ht])] at hres hmem
        dsimp only at hres hmem
        have hkne : forwardKept adSubF t ≠ [] := by
          intro he
          rw [forwardResult, he] at hres
          exact hres rfl
        have hprops := forwardKept_props adSubF t
        rw [forwardResult_eq_joinNl,
          splitOnNl_joinNl _ hkne (fun p hp => (hprops p hp).2.1)] at hmem
        obtain ⟨hne, _, htrp⟩ := hprops l hmem
        rw [htrp] at htr
        exact hne htr

/-- Claim C3, witness: the amended theorem applied to a separator-only message
for the comparison cleaner and to a whitespace-only message for the forwarding
cleaner. -/
theorem C3_witness :
    (isSepLine ([] : List Char) = true ∧
      ([] : List Char) ∈ splitOnNl (clean_text_for_compare id "----".toList) ∧
      clean_text_for_compare id "----".toList = []) ∧
    (([] : List Char) ∈ splitOnNl ((clean_text_for_forward id true " ".toList).1) ∧
      (clean_text_for_forward id true " ".toList).1 = []) :=
  ⟨⟨by decide, by decide,
    (C3_separator_lines id id "----".toList []).1 (by decide) (by decide)⟩,
   ⟨by decide,
    (C3_separator_lines id id " ".toList []).2 (by decide) (by decide)⟩⟩

/-! Claim C4: ticker-only lines. -/

/-- Claim C4: a pure ticker line is preserved (stripped) when it is the sole
line of the pattern-cleaned message, and every ticker line is dropped when the
message splits into more than one line; in particular a sole-line ticker
message survives verbatim with zero characters removed, and a ticker line
followed by a content line is dropped while the content line is retained. -/
theorem C4_ticker_lines (adSubF : List Char → List Char) (t l : List Char) :
    (t ≠ [] → splitOnNl (adSubF t) = [l] → isTickerLine (trim l) = true →
      (clean_text_for_forward adSubF true t).1 = trim l) ∧
    (1 < (splitOnNl (adSubF t)).length →
      ∀ x ∈ splitOnNl ((clean_text_for_forward adSubF true t).1), isTickerLine x = false) ∧
    clean_text_for_forward id true "$AAPL $TSLA".toList = ("$AAPL $TSLA".toList, 0) ∧
    (clean_text_for_forward id true "$AAPL $TSLA\nMarket news today".toList).1 =
      "Market news today".toList := by
  refine ⟨?_, ?_, by decide, by decide⟩
  · intro ht hsplit htick
    have hne : trim l ≠ [] := by
      intro he
      rw [he] at htick
      exact absurd htick (by decide)
    rw [clean_text_for_forward, if_neg (by simp [ht])]
    dsimp only
    have hkept : forwardKept adSubF t = [trim l] := by
      rw [forwardKept, hsplit]
      simp [List.filter_cons, hne]
    have hnl : '\n' ∉ trim l := by
      intro hc
      have hmem : l ∈ splitOnNl (adSubF t) := by
        rw [hsplit]
        exact List.mem_cons_self _ _
      exact mem_splitOnNl_no_nl _ l hmem (mem_trim hc)
    rw [forwardResult, hkept, show joinNl [trim l] = trim l from rfl, collapseNl,
      goN_no_nl _ hnl 0, trim_idem]
  · intro hlen x hx
    by_cases hres : (clean_text_for_forward adSubF true t).1 = []
    · rw [hres] at hx
      simp [splitOnNl] at hx
      rw [hx]
      decide
    · by_cases ht : t = []
      · rw [clean_text_for_forward, if_pos (Or.inl ht)] at hres
        exact absurd ht hres
      · rw [clean_text_for_forward, if_neg (by simp [ht])] at hres hx
        dsimp only at hres hx
        have hkne : forwardKept adSubF t ≠ [] := by
          intro he
          rw [forwardResult, he] at hres
          exact hres rfl
        have hprops := forwardKept_props adSubF t
        rw [forwardResult_eq_joinNl,
          splitOnNl_joinNl _ hkne (fun p hp => (hprops p hp).2.1)] at hx
        rw [forwardKept] at hx
        have hc := (List.mem_filter.mp hx).2
        simp only [decide_eq_true hlen, Bool.and_true, Bool.and_eq_true,
          Bool.not_eq_true'] at hc
        exact hc.2

/-- Claim C4, witness: the sole-line branch of the ticker theorem applied to a
message whose pattern-cleaned form is a single ticker line. -/
theorem C4_witness :
    ("x".toList ≠ []) ∧
    splitOnNl ((fun _ => "$AB".toList) "x".toList) = ["$AB".toList] ∧
    isTickerLine (trim "$AB".toList) = true ∧
    (clean_text_for_forward (fun _ => "$AB".toList) true "x".toList).1 = trim "$AB".toList :=
  ⟨by decide, by decide, by decide,
    (C4_ticker_lines (fun _ => "$AB".toList) "x".toList "$AB".toList).1
      (by decide) (by decide) (by decide)⟩

/-! Claim C10: the forwarding cleaner never lengthens its input. -/

/-- Claim C10: the forwarding cleaner removes a non-negative number of
characters bounded by the input length, the output length is exactly the input
length minus the removed count, and the text is returned unmodified with zero
removed when cleaning is disabled or the input is empty. -/
theorem C10_stripper_bounds (adSubF : List Char → List Char) (cleanEnabled : Bool)
    (t : List Char) (h : ∀ s, (adSubF s).length ≤ s.length) :
    0 ≤ (clean_text_for_forward adSubF cleanEnabled t).2 ∧
    (clean_text_for_forward adSubF cleanEnabled t).2 ≤ (t.length : Int) ∧
    (((clean_text_for_forward adSubF cleanEnabled t).1.length : Int) =
      (t.length : Int) - (clean_text_for_forward adSubF cleanEnabled t).2) ∧
    ((cleanEnabled = false ∨ t = []) → clean_text_for_forward adSubF cleanEnabled t = (t, 0)) := by
  rw [clean_text_for_forward]
  by_cases hoff : t = [] ∨ cleanEnabled = false
  · rw [if_pos hoff]
    refine ⟨le_refl 0, ?_, by simp, fun _ => rfl⟩
    dsimp only
    omega
  · rw [if_neg hoff]
    have hlen : (forwardResult adSubF t).length ≤ t.length := by
      calc (forwardResult adSubF t).length
          ≤ (collapseNl (joinNl (forwardKept adSubF t))).length := trim_length_le _
        _ ≤ (joinNl (forwardKept adSubF t)).length := goN_length_le 0 _
        _ ≤ (joinNl ((splitOnNl (adSubF t)).map trim)).length := by
            apply joinNl_length_sublist
            rw [forwardKept]
            exact List.filter_sublist _
        _ ≤ (joinNl (splitOnNl (adSubF t))).length := joinNl_map_trim_length _
        _ = (adSubF t).length := by rw [joinNl_splitOnNl]
        _ ≤ t.length := h t
    refine ⟨?_, ?_, ?_, ?_⟩
    · dsimp only
      omega
    · dsimp only
      omega
    · dsimp only
      omega
    · intro hd
      rcases hd with hd | hd
      · exact absurd (Or.inr hd) hoff
      · exact absurd (Or.inl hd) hoff

/-- Claim C10, witness: the bounds theorem applied to the identity pattern
substitution on a concrete message. -/
theorem C10_witness :
    0 ≤ (clean_text_for_forward id true "hello\n\n\n\nworld ".toList).2 ∧
    (clean_text_for_forward id true "hello\n\n\n\nworld ".toList).2 ≤
      ("hello\n\n\n\nworld ".toList.length : Int) :=
  ⟨(C10_stripper_bounds id true "hello\n\n\n\nworld ".toList (fun _ => le_refl _)).1,
   (C10_stripper_bounds id true "hello\n\n\n\nworld ".toList (fun _ => le_refl _)).2.1⟩

/-! Lemmas about the url-removal state machine, towards claim C7. -/

theorem isHttpStart_intro (c : Char) (rest : List Char) (hc : isSpaceChar c = false) :
    isHttpStart ('h' :: 't' :: 't' :: 'p' :: c :: rest) = true := by
  simp [isHttpStart, hc]

theorem isHttpStart_elim {l : List Char} (h : isHttpStart l = true) :
    ∃ c rest, l = 'h' :: 't' :: 't' :: 'p' :: c :: rest ∧ isSpaceChar c = false := by
  rcases l with _ | ⟨c1, l⟩
  · exact absurd h Bool.false_ne_true
  rcases l with _ | ⟨c2, l⟩
  · exact absurd h Bool.false_ne_true
  rcases l with _ | ⟨c3, l⟩
  · exact absurd h Bool.false_ne_true
  rcases l with _ | ⟨c4, l⟩
  · exact absurd h Bool.false_ne_true
  rcases l with _ | ⟨c5, rest⟩
  · exact absurd h Bool.false_ne_true
  simp only [isHttpStart, Bool.and_eq_true, beq_iff_eq, Bool.not_eq_true'] at h
  obtain ⟨⟨⟨⟨h1, h2⟩, h3⟩, h4⟩, h5⟩ := h
  subst h1
  subst h2
  subst h3
  subst h4
  exact ⟨c5, rest, rfl, h5⟩

theorem not_hasHttp_nil : ¬ hasHttp [] := by
  rintro ⟨i, hi⟩
  rw [List.drop_nil] at hi
  simp [isHttpStart] at hi

theorem hasHttp_cons_of {c : Char} {rest : List Char} (h : hasHttp rest) :
    hasHttp (c :: rest) := by
  obtain ⟨i, hi⟩ := h
  exact ⟨i + 1, hi⟩

theorem not_hasHttp_cons {c : Char} {rest : List Char} (h : ¬ hasHttp (c :: rest)) :
    ¬ hasHttp rest :=
  fun h2 => h (hasHttp_cons_of h2)

theorem goU_true_head_space : ∀ (X : List Char) {y : Char} {ys : List Char},
    goU true X = y :: ys → isSpaceChar y = true := by
  intro X
  induction X with
  | nil => intro y ys h; simp [goU] at h
  | cons c rest ih =>
    intro y ys h
    rw [goU] at h
    by_cases hs : isSpaceChar c
    · rw [if_pos hs] at h
      injection h with h1 _
      rw [← h1]
      exact hs
    · rw [if_neg hs] at h
      exact ih h

theorem goU_false_cons_eq : ∀ {m : List Char} {y : Char} {ys : List Char},
    goU false m = y :: ys → isSpaceChar y = false →
    ∃ m2, m = y :: m2 ∧ ys = goU false m2 := by
  intro m y ys h hy
  cases m with
  | nil => simp [goU] at h
  | cons c rest =>
    rw [goU] at h
    by_cases hs : isHttpStart (c :: rest)
    · rw [if_pos hs] at h
      rw [goU_true_head_space rest h] at hy
      cases hy
    · rw [if_neg hs] at h
      injection h with h1 h2
      subst h1
      exact ⟨rest, rfl, h2.symm⟩

theorem goU_no_http : ∀ (X : List Char) (b : Bool), ¬ hasHttp (goU b X) := by
  intro X
  induction X with
  | nil =>
    intro b
    cases b <;> simpa [goU] using not_hasHttp_nil
  | cons c rest ih =>
    intro b
    cases b
    · rw [goU]
      by_cases hs : isHttpStart (c :: rest)
      · rw [if_pos hs]
        exact ih true
      · rw [if_neg hs]
        rintro ⟨i, hi⟩
        cases i with
        | zero =>
          rw [List.drop_zero] at hi
          obtain ⟨c5, r5, heq, hc5⟩ := isHttpStart_elim hi
          injection heq with h1 heq2
          obtain ⟨m1, e1, f1⟩ := goU_false_cons_eq heq2 (by decide)
          obtain ⟨m2, e2, f2⟩ := goU_false_cons_eq f1.symm (by decide)
          obtain ⟨m3, e3, f3⟩ := goU_false_cons_eq f2.symm (by decide)
          obtain ⟨m4, e4, _⟩ := goU_false_cons_eq f3.symm hc5
          apply hs
          rw [h1, e1, e2, e3, e4]
          exact isHttpStart_intro c5 m4 hc5
        | succ i =>
          exact ih false ⟨i, hi⟩
    · rw [goU]
      by_cases hs : isSpaceChar c
      · rw [if_pos hs]
        rintro ⟨i, hi⟩
        cases i with
        | zero =>
          rw [List.drop_zero] at hi
          obtain ⟨c5, r5, heq, _⟩ := isHttpStart_elim hi
          injection heq with h1 _
          rw [h1] at hs
          exact absurd hs (by decide)
        | succ i =>
          exact ih false ⟨i, hi⟩
      · rw [if_neg hs]
        exact ih true

theorem goU_id_of_no_http : ∀ (l : List Char), ¬ hasHttp l → goU false l = l := by
  intro l
  induction l with
  | nil => intro _; rfl
  | cons c rest ih =>
    intro h
    rw [goU]
    by_cases hs : isHttpStart (c :: rest)
    · exact absurd ⟨0, by simpa using hs⟩ h
    · rw [if_neg hs, ih (not_hasHttp_cons h)]

/-! Lemmas about the tag-removal state machine, towards claim C7. -/

theorem goT_true_eq (tag : Char) : ∀ (X : List Char),
    goT tag true X = goT tag false (X.dropWhile isWordChar) := by
  intro X
  induction X with
  | nil => rfl
  | cons c rest ih =>
    rw [goT, List.dropWhile_cons]
    by_cases hw : isWordChar c
    · rw [if_pos hw, if_pos hw, ih]
    · rw [if_neg hw, if_neg hw, goT]

theorem goT_true_head_nonword (tag : Char) : ∀ (X : List Char) {y : Char} {ys : List Char},
    goT tag true X = y :: ys → isWordChar y = false := by
  intro X
  induction X with
  | nil => intro y ys h; simp [goT] at h
  | cons c rest ih =>
    intro y ys h
    rw [goT] at h
    by_cases hw : isWordChar c
    · rw [if_pos hw] at h
      exact ih h
    · rw [if_neg hw] at h
      by_cases hc : (c == tag && headIsWord rest) = true
      · rw [if_pos hc] at h
        exact ih h
      · rw [if_neg hc] at h
        injection h with h1 _
        rw [← h1]
        simpa using hw

theorem goT_false_cons_eq (tag : Char) : ∀ {m : List Char} {y : Char} {ys : List Char},
    goT tag false m = y :: ys → isWordChar y = true →
    ∃ m2, m = y :: m2 ∧ ys = goT tag false m2 := by
  intro m y ys h hy
  cases m with
  | nil => simp [goT] at h
  | cons c rest =>
    rw [goT] at h
    by_cases hc : (c == tag && headIsWord rest) = true
    · rw [if_pos hc] at h
      rw [goT_true_head_nonword tag rest h] at hy
      cases hy
    · rw [if_neg hc] at h
      injection h with h1 h2
      subst h1
      exact ⟨rest, rfl, h2.symm⟩

theorem goT_false_head_cases (tag : Char) {m : List Char} {y : Char} {ys : List Char}
    (h : goT tag false m = y :: ys) :
    (∃ m2, m = y :: m2) ∨ (∃ m2, m = tag :: m2) := by
  cases m with
  | nil => simp [goT] at h
  | cons c rest =>
    rw [goT] at h
    by_cases hc : (c == tag && headIsWord rest) = true
    · right
      have : c = tag := by
        have := (Bool.and_eq_true _ _).mp hc
        exact beq_iff_eq.mp this.1
      exact ⟨rest, by rw [this]⟩
    · rw [if_neg hc] at h
      injection h with h1 _
      exact Or.inl ⟨rest, by rw [h1]⟩

theorem dropWhile_eq_drop (p : Char → Bool) : ∀ (l : List Char),
    ∃ k, l.dropWhile p = l.drop k := by
  intro l
  induction l with
  | nil => exact ⟨0, rfl⟩
  | cons c rest ih =>
    by_cases h : p c
    · obtain ⟨k, hk⟩ := ih
      refine ⟨k + 1, ?_⟩
      rw [List.dropWhile_cons, if_pos h]
      exact hk
    · refine ⟨0, ?_⟩
      rw [List.dropWhile_cons, if_neg h]
      rfl

theorem hasHttp_of_drop {l : List Char} {k : Nat} (h : hasHttp (l.drop k)) : hasHttp l := by
  obtain ⟨i, hi⟩ := h
  rw [List.drop_drop] at hi
  exact ⟨_, hi⟩

theorem hasHttp_of_dropWhile {p : Char → Bool} {l : List Char}
    (h : hasHttp (l.dropWhile p)) : hasHttp l := by
  obtain ⟨k, hk⟩ := dropWhile_eq_drop p l
  rw [hk] at h
  exact hasHttp_of_drop h

theorem goT_no_http (tag : Char) (hs : isSpaceChar tag = false) :
    ∀ (n : Nat) (m : List Char), m.length ≤ n → hasHttp (goT tag false m) → hasHttp m := by
  intro n
  induction n with
  | zero =>
    intro m hm h
    have hnil : m = [] := List.length_eq_zero.mp (Nat.le_antisymm hm (Nat.zero_le _))
    subst hnil
    simpa [goT] using h
  | succ n ih =>
    intro m hm h
    cases m with
    | nil => simpa [goT] using h
    | cons c rest =>
      have hrest : rest.length ≤ n := by
        simp only [List.length_cons] at hm
        omega
      rw [goT] at h
      by_cases hcond : (c == tag && headIsWord rest) = true
      · rw [if_pos hcond, goT_true_eq] at h
        have hdlen : (rest.dropWhile isWordChar).length ≤ n :=
          le_trans (List.dropWhile_sublist _).length_le hrest
        exact hasHttp_cons_of (hasHttp_of_dropWhile (ih _ hdlen h))
      · rw [if_neg hcond] at h
        obtain ⟨i, hi⟩ := h
        cases i with
        | zero =>
          rw [List.drop_zero] at hi
          obtain ⟨c5, r5, heq, hc5⟩ := isHttpStart_elim hi
          injection heq with h1 heq2
          obtain ⟨m1, e1, f1⟩ := goT_false_cons_eq tag heq2 (by decide)
          obtain ⟨m2, e2, f2⟩ := goT_false_cons_eq tag f1.symm (by decide)
          obtain ⟨m3, e3, f3⟩ := goT_false_cons_eq tag f2.symm (by decide)
          rcases goT_false_head_cases tag f3.symm with ⟨m4, e4⟩ | ⟨m4, e4⟩
          · refine ⟨0, ?_⟩
            rw [List.drop_zero, h1, e1, e2, e3, e4]
            exact isHttpStart_intro c5 m4 hc5
          · refine ⟨0, ?_⟩
            rw [List.drop_zero, h1, e1, e2, e3, e4]
            exact isHttpStart_intro tag m4 hs
        | succ i =>
          exact hasHttp_cons_of (ih rest hrest ⟨i, hi⟩)

theorem goT_id_of_not_mem (tag : Char) : ∀ (l : List Char), tag ∉ l →
    goT tag false l = l := by
  intro l
  induction l with
  | nil => intro _; rfl
  | cons c rest ih =>
    intro h
    rw [goT]
    have hc : (c == tag) = false := by
      rw [beq_eq_false_iff_ne]
      intro e
      subst e
      exact h (List.mem_cons_self _ _)
    rw [hc, Bool.false_and, if_neg (by simp), ih (fun hm => h (List.mem_cons_of_mem _ hm))]

/-! Occurrence bookkeeping through joining, tokenizing and mapping. -/

theorem isHttpStart_append_space {x b : List Char}
    (h : isHttpStart (x ++ ' ' :: b) = true) : isHttpStart x = true := by
  obtain ⟨c5, r5, heq, hc5⟩ := isHttpStart_elim h
  rcases x with _ | ⟨a1, x⟩
  · rw [List.nil_append] at heq
    injection heq with h1 _
    exact absurd h1 (by decide)
  rcases x with _ | ⟨a2, x⟩
  · simp only [List.cons_append, List.nil_append, List.cons.injEq] at heq
    obtain ⟨_, e2, _⟩ := heq
    exact absurd e2 (by decide)
  rcases x with _ | ⟨a3, x⟩
  · simp only [List.cons_append, List.nil_append, List.cons.injEq] at heq
    obtain ⟨_, _, e3, _⟩ := heq
    exact absurd e3 (by decide)
  rcases x with _ | ⟨a4, x⟩
  · simp only [List.cons_append, List.nil_append, List.cons.injEq] at heq
    obtain ⟨_, _, _, e4, _⟩ := heq
    exact absurd e4 (by decide)
  rcases x with _ | ⟨a5, x⟩
  · simp only [List.cons_append, List.nil_append, List.cons.injEq] at heq
    obtain ⟨_, _, _, _, e5, _⟩ := heq
    rw [← e5] at hc5
    exact absurd hc5 (by decide)
  · simp only [List.cons_append, List.cons.injEq] at heq
    obtain ⟨e1, e2, e3, e4, e5, _⟩ := heq
    rw [e1, e2, e3, e4, e5]
    exact isHttpStart_intro c5 x hc5

theorem hasHttp_append_space {a b : List Char} (h : hasHttp (a ++ ' ' :: b)) :
    hasHttp a ∨ hasHttp b := by
  obtain ⟨i, hi⟩ := h
  by_cases hcase : i ≤ a.length
  · rw [List.drop_append_eq_append_drop] at hi
    have h0 : i - a.length = 0 := by omega
    rw [h0, List.drop_zero] at hi
    exact Or.inl ⟨i, isHttpStart_append_space hi⟩
  · rw [List.drop_append_eq_append_drop] at hi
    have ha : a.drop i = [] := List.drop_eq_nil_of_le (by omega)
    rw [ha, List.nil_append] at hi
    obtain ⟨j, hj⟩ : ∃ j, i - a.length = j + 1 := ⟨i - a.length - 1, by omega⟩
    rw [hj] at hi
    exact Or.inr ⟨j, hi⟩

theorem joinSpace_http : ∀ (ws : List (List Char)), hasHttp (joinSpace ws) →
    ∃ w ∈ ws, hasHttp w := by
  intro ws
  induction ws with
  | nil => intro h; exact absurd h not_hasHttp_nil
  | cons w t ih =>
    intro h
    cases t with
    | nil => exact ⟨w, List.mem_cons_self _ _, by simpa [joinSpace] using h⟩
    | cons b t2 =>
      rw [joinSpace_cons_cons] at h
      rcases hasHttp_append_space h with h | h
      · exact ⟨w, List.mem_cons_self _ _, h⟩
      · obtain ⟨w2, hw2, hh⟩ := ih h
        exact ⟨w2, List.mem_cons_of_mem _ hw2, hh⟩

theorem wordsAux_shapes : ∀ (l acc w : List Char), w ∈ wordsAux l acc →
    (∃ p r, p ++ r = l ∧ w = acc.reverse ++ p) ∨ (∃ s r, s ++ (w ++ r) = l) := by
  intro l
  induction l with
  | nil =>
    intro acc w hw
    by_cases ha : acc = []
    · simp [wordsAux, ha] at hw
    · simp only [wordsAux, if_neg ha, List.mem_singleton] at hw
      subst hw
      exact Or.inl ⟨[], [], rfl, by simp⟩
  | cons c rest ih =>
    intro acc w hw
    rw [wordsAux] at hw
    by_cases hs : isSpaceChar c
    · rw [if_pos hs] at hw
      have htail : ∀ w2, w2 ∈ wordsAux rest [] → ∃ s r, s ++ (w2 ++ r) = c :: rest := by
        intro w2 hw2
        rcases ih [] w2 hw2 with ⟨p, r, hpr, hwp⟩ | ⟨s, r, hsr⟩
        · simp only [List.reverse_nil, List.nil_append] at hwp
          subst hwp
          exact ⟨[c], r, by rw [List.singleton_append, hpr]⟩
        · exact ⟨c :: s, r, by rw [List.cons_append, hsr]⟩
      by_cases ha : acc = []
      · rw [if_pos ha] at hw
        exact Or.inr (htail w hw)
      · rw [if_neg ha] at hw
        rcases List.mem_cons.mp hw with hw | hw
        · subst hw
          exact Or.inl ⟨[], c :: rest, rfl, by simp⟩
        · exact Or.inr (htail w hw)
    · rw [if_neg hs] at hw
      rcases ih (c :: acc) w hw with ⟨p, r, hpr, hwp⟩ | ⟨s, r, hsr⟩
      · left
        refine ⟨c :: p, r, by rw [List.cons_append, hpr], ?_⟩
        rw [hwp]
        simp
      · right
        exact ⟨c :: s, r, by rw [List.cons_append, hsr]⟩

theorem wordsOf_piece {l w : List Char} (h : w ∈ wordsOf l) :
    ∃ s r, s ++ (w ++ r) = l := by
  rcases wordsAux_shapes l [] w h with ⟨p, r, hpr, hwp⟩ | hinf
  · simp only [List.reverse_nil, List.nil_append] at hwp
    subst hwp
    exact ⟨[], r, by simpa using hpr⟩
  · exact hinf

theorem hasHttp_of_occ {q s w r : List Char} (heq : s ++ (w ++ r) = q)
    (h : hasHttp w) : hasHttp q := by
  obtain ⟨i, hi⟩ := h
  obtain ⟨c5, r5, e5, hc5⟩ := isHttpStart_elim hi
  refine ⟨s.length + i, ?_⟩
  rw [← heq, List.drop_append_eq_append_drop,
    List.drop_eq_nil_of_le (by omega : s.length ≤ s.length + i), List.nil_append,
    show s.length + i - s.length = i from by omega, List.drop_append_eq_append_drop, e5]
  simp only [List.cons_append]
  exact isHttpStart_intro c5 _ hc5

theorem replF_eq_nonspace {c d : Char}
    (h : (if isWordChar c || isSpaceChar c then c else ' ') = d)
    (hd : isSpaceChar d = false) : c = d := by
  by_cases hc : (isWordChar c || isSpaceChar c) = true
  · rw [if_pos hc] at h
    exact h
  · rw [if_neg hc] at h
    rw [← h] at hd
    exact absurd hd (by decide)

theorem map_replF_http {X : List Char} {c5 : Char} {r5 : List Char}
    (heq : X.map (fun c => if isWordChar c || isSpaceChar c then c else ' ') =
      'h' :: 't' :: 't' :: 'p' :: c5 :: r5)
    (hc5 : isSpaceChar c5 = false) : isHttpStart X = true := by
  rcases X with _ | ⟨x1, X⟩
  · simp at heq
  rcases X with _ | ⟨x2, X⟩
  · simp at heq
  rcases X with _ | ⟨x3, X⟩
  · simp at heq
  rcases X with _ | ⟨x4, X⟩
  · simp at heq
  rcases X with _ | ⟨x5, X⟩
  · simp at heq
  simp only [List.map_cons, List.cons.injEq] at heq
  obtain ⟨e1, e2, e3, e4, e5, _⟩ := heq
  rw [replF_eq_nonspace e1 (by decide), replF_eq_nonspace e2 (by decide),
    replF_eq_nonspace e3 (by decide), replF_eq_nonspace e4 (by decide),
    replF_eq_nonspace e5 hc5]
  exact isHttpStart_intro c5 X hc5

theorem punctToSpace_no_http {m : List Char} (h : hasHttp (punctToSpace m)) :
    hasHttp m := by
  obtain ⟨i, hi⟩ := h
  rw [punctToSpace, ← List.map_drop] at hi
  obtain ⟨c5, r5, heq, hc5⟩ := isHttpStart_elim hi
  exact ⟨i, map_replF_http heq hc5⟩

theorem mem_joinSpace {c : Char} : ∀ {ws : List (List Char)}, c ∈ joinSpace ws →
    c = ' ' ∨ ∃ w ∈ ws, c ∈ w := by
  intro ws
  induction ws with
  | nil => intro h; simp [joinSpace] at h
  | cons w t ih =>
    intro h
    cases t with
    | nil => exact Or.inr ⟨w, List.mem_cons_self _ _, by simpa [joinSpace] using h⟩
    | cons b t2 =>
      rw [joinSpace_cons_cons] at h
      rcases List.mem_append.mp h with h | h
      · exact Or.inr ⟨w, List.mem_cons_self _ _, h⟩
      · rcases List.mem_cons.mp h with h | h
        · exact Or.inl h
        · rcases ih h with h | ⟨w2, hw2, hc2⟩
          · exact Or.inl h
          · exact Or.inr ⟨w2, List.mem_cons_of_mem _ hw2, hc2⟩

theorem mem_of_wordsOf {q w : List Char} (hw : w ∈ wordsOf q) {c : Char} (hc : c ∈ w) :
    c ∈ q := by
  obtain ⟨s, r, heq⟩ := wordsOf_piece hw
  rw [← heq]
  exact List.mem_append_right _ (List.mem_append_left _ hc)

theorem punctToSpace_mem {q : List Char} {c : Char} (h : c ∈ punctToSpace q) :
    (isWordChar c || isSpaceChar c) = true := by
  rw [punctToSpace] at h
  obtain ⟨a, _, ha⟩ := List.mem_map.mp h
  by_cases hc : (isWordChar a || isSpaceChar a) = true
  · rw [if_pos hc] at ha
    rw [← ha]
    exact hc
  · rw [if_neg hc] at ha
    rw [← ha]
    decide

/-! Claim C7: the noise-removal steps fix the normalized text. -/

/-- Claim C7: the output of normalize_text contains no hashtag token, no
url-pattern occurrence and no mention token: the hashtag, url and mention
substitutions of a second normalization pass leave the normalized text
completely unchanged. -/
theorem C7_noise_removal_idempotent (x : List Char) :
    subTag '#' (normalize_text x) = normalize_text x ∧
    subUrls (normalize_text x) = normalize_text x ∧
    subTag '@' (normalize_text x) = normalize_text x := by
  by_cases hx : x = []
  · subst hx
    exact ⟨rfl, rfl, rfl⟩
  · have hn : normalize_text x = joinSpace (wordsOf
        (punctToSpace (subTag '@' (subUrls ((remove_hashtags x).map lowerChar))))) := by
      rw [normalize_text, if_neg hx]
    have hchar : ∀ c ∈ normalize_text x, (isWordChar c || isSpaceChar c) = true := by
      intro c hc
      rw [hn] at hc
      rcases mem_joinSpace hc with h | ⟨w, hw, hcw⟩
      · subst h
        decide
      · exact punctToSpace_mem (mem_of_wordsOf hw hcw)
    have hhash : '#' ∉ normalize_text x := by
      intro hm
      exact absurd (hchar '#' hm) (by decide)
    have hat : '@' ∉ normalize_text x := by
      intro hm
      exact absurd (hchar '@' hm) (by decide)
    have hnohttp : ¬ hasHttp (normalize_text x) := by
      intro hh
      rw [hn] at hh
      obtain ⟨w, hw, hww⟩ := joinSpace_http _ hh
      obtain ⟨s, r, heq⟩ := wordsOf_piece hw
      have h3 := punctToSpace_no_http (hasHttp_of_occ heq hww)
      have h4 := goT_no_http '@' (by decide) _ _ (le_refl _) h3
      exact goU_no_http _ false h4
    exact ⟨goT_id_of_not_mem '#' _ hhash, goU_id_of_no_http _ hnohttp,
      goT_id_of_not_mem '@' _ hat⟩

end Telebot
